import Mathlib

/-!
Verification of the affiliation-matching / report-assembly pipeline of
`fetch_pubmed.py` (pubspy).  Python strings are modelled as `List Char`;
the institute dictionary and the pmid→institutes dictionary are modelled
as association lists with Python `dict` update semantics; the XML tree
returned by `xml.etree.ElementTree` is modelled by the inductive `XML`.
All definitions are translated from the source file `fetch_pubmed.py`.
-/

abbrev Str := List Char

/-- Whitespace characters stripped by Python `str.strip()` (ASCII subset). -/
def isWsChar (c : Char) : Bool :=
  c = ' ' || c = '\t' || c = '\n' || c = '\r' || c = Char.ofNat 11 || c = Char.ofNat 12

/-- Model of Python `s.lstrip()`. -/
def lstrip (s : Str) : Str := s.dropWhile isWsChar

/-- Model of Python `s.rstrip()`. -/
def rstrip (s : Str) : Str := (s.reverse.dropWhile isWsChar).reverse

/-- Model of Python `s.strip()`. -/
def strip (s : Str) : Str := rstrip (lstrip s)

/-- Model of Python `line.split('\t')`. -/
def splitTab : Str → List Str
  | [] => [[]]
  | c :: rest =>
    if c = '\t' then [] :: splitTab rest
    else
      match splitTab rest with
      | [] => [[c]]
      | p :: ps => (c :: p) :: ps

/-- Model of Python `s.lower()` (ASCII case folding, as in `Char.toLower`). -/
def lowerStr (s : Str) : Str := s.map Char.toLower

/-- needle is a prefix of hay. -/
def startsWithStr : Str → Str → Bool
  | [], _ => true
  | _ :: _, [] => false
  | a :: as, b :: bs => a = b && startsWithStr as bs

/-- Model of Python `needle in hay` (substring containment). -/
def substrOf (needle : Str) : Str → Bool
  | [] => startsWithStr needle []
  | c :: rest => startsWithStr needle (c :: rest) || substrOf needle rest

/-- Python `d[k] = v` on a dict modelled as an association list:
replace the value in place if the key exists, else append. -/
def dinsert (d : List (Str × Str)) (k v : Str) : List (Str × Str) :=
  if d.any (fun p => decide (p.1 = k)) then
    d.map (fun p => if p.1 = k then (k, v) else p)
  else d ++ [(k, v)]

/-- Python `d[k]` / `k in d` on the institute dict. -/
def dlookup (d : List (Str × Str)) (k : Str) : Option Str :=
  (d.find? (fun p => decide (p.1 = k))).map (fun p => p.2)

/-- Loop body of `read_institute_names`: process each line in order,
threading the dict.  `none` models the `assert len(parts) == 2`
failure (an `AssertionError`). -/
def readLines (acc : List (Str × Str)) : List Str → Option (List (Str × Str))
  | [] => some acc
  | l :: rest =>
    let s := strip l
    if s = [] then readLines acc rest
    else if s.head? = some '#' then readLines acc rest
    else
      match splitTab s with
      | [a, b] =>
        readLines (dinsert acc ((strip a).filter (fun c => decide (c ≠ '"'))) (strip b)) rest
      | _ => none

/-- Model of `read_institute_names`, the file given as its list of lines
(Python file iteration yields the physical lines, so a line itself never
contains a newline). -/
def read_institute_names (lines : List Str) : Option (List (Str × Str)) :=
  readLines [] lines

/-- Model of the `chunked` generator: consecutive slices
`iterable[i:i+n]` for `i = 0, n, 2n, ...`. -/
def chunked {α : Type} : List α → Nat → List (List α)
  | [], _ => []
  | _ :: _, 0 => []
  | x :: xs, n + 1 => ((x :: xs).take (n + 1)) :: chunked ((x :: xs).drop (n + 1)) (n + 1)
termination_by l _ => l.length
decreasing_by simp [List.length_drop]; omega

/-- `CHUNK_SIZE` from the source. -/
def CHUNK_SIZE : Nat := 250

/-- The country sentinel. -/
def NA : Str := "NA".toList

/-- One iteration of the loop inside `institute_affiliation_match`,
for the rule `(inst, country)`: the Python test
`country == "NA" and any(inst_lower in aff for aff in affiliations)`
or-else
`any(inst_lower in aff and country and country.lower() in aff for aff in affiliations)`. -/
def ruleMatch (inst country : Str) (affs : List Str) : Bool :=
  (decide (country = NA) && affs.any (fun aff => substrOf (lowerStr inst) aff))
  || affs.any (fun aff =>
       substrOf (lowerStr inst) aff && (decide (country ≠ []) && substrOf (lowerStr country) aff))

/-- `all_institutes[inst]` — total in the program because every name in
`qry_institutes` was drawn from the keys of `all_institutes` in `main`. -/
def countryOf (allInst : List (Str × Str)) (inst : Str) : Str :=
  (dlookup allInst inst).getD []

/-- Model of `institute_affiliation_match` (the early-returning loop). -/
def institute_affiliation_match (allInst : List (Str × Str)) :
    List Str → List Str → Bool
  | [], _ => false
  | inst :: rest, affs =>
    let country := countryOf allInst inst
    if decide (country = NA) && affs.any (fun aff => substrOf (lowerStr inst) aff) then true
    else if affs.any (fun aff =>
        substrOf (lowerStr inst) aff
          && (decide (country ≠ []) && substrOf (lowerStr country) aff)) then true
    else institute_affiliation_match allInst rest affs

/-- An `xml.etree.ElementTree` element: tag, text, child elements. -/
inductive XML : Type where
  | node (tag : Str) (txt : Option Str) (children : List XML)

def XML.tag : XML → Str
  | .node t _ _ => t

def XML.txt : XML → Option Str
  | .node _ x _ => x

def XML.children : XML → List XML
  | .node _ _ c => c

mutual
/-- All proper descendants of an element, in document (pre)order —
the order in which `Element.iter` yields them, minus the element itself. -/
def XML.descendants : XML → List XML
  | .node _ _ cs => descendantsL cs

def descendantsL : List XML → List XML
  | [] => []
  | c :: cs => c :: (XML.descendants c ++ descendantsL cs)
end

/-- The children of `x` carrying the given tag, in order (one `/tag` step). -/
def childNamed (t : Str) (x : XML) : List XML :=
  x.children.filter (fun c => decide (c.tag = t))

/-- Model of ElementTree `findall('.//t1/t2/.../tk')`: the `.//t1` step
selects the proper descendants tagged `t1` in document order, each
further tag is a child step. -/
def findallDD (x : XML) : List Str → List XML
  | [] => []
  | t :: ts =>
    ts.foldl (fun acc tg => acc.flatMap (childNamed tg))
      (x.descendants.filter (fun d => decide (d.tag = t)))

/-- Model of ElementTree `find('.//...')`: first match or `None`. -/
def find1 (x : XML) (p : List Str) : Option XML := (findallDD x p).head?

/-- `elem.text if elem is not None else ''` applied to a `find` result.
`none` models Python `None` text on a present element. -/
def textOrEmpty (r : Option XML) : Option Str :=
  match r with
  | some e => e.txt
  | none => some []

def pmidOf (a : XML) : Option Str := textOrEmpty (find1 a ["PMID".toList])

def titleOf (a : XML) : Option Str := textOrEmpty (find1 a ["ArticleTitle".toList])

def journalOf (a : XML) : Option Str :=
  textOrEmpty (find1 a ["Journal".toList, "Title".toList])

/-- The publication-date extraction: prefer `.//JournalIssue/PubDate/Year`,
else `.//JournalIssue/PubDate/MedlineDate`, else `''`. -/
def pubdateOf (a : XML) : Option Str :=
  match find1 a ["JournalIssue".toList, "PubDate".toList, "Year".toList] with
  | some e => e.txt
  | none =>
    match find1 a ["JournalIssue".toList, "PubDate".toList, "MedlineDate".toList] with
    | some e => e.txt
    | none => some []

/-- `[aff.text.lower() for aff in article.findall('.//AffiliationInfo/Affiliation') if aff.text]`:
keep only truthy texts (neither `None` nor empty), lower-cased. -/
def affsOf (a : XML) : List Str :=
  (findallDD a ["AffiliationInfo".toList, "Affiliation".toList]).filterMap
    (fun e =>
      match e.txt with
      | some t => if t = [] then none else some (lowerStr t)
      | none => none)

/-- Python `f"...{x}..."` interpolation of a possibly-`None` string. -/
def pyShow (o : Option Str) : Str :=
  match o with
  | some s => s
  | none => "None".toList

/-- `pmid in all_pmids` / `all_pmids[pmid]` on the pmid→institutes dict. -/
def plookup (d : List (Str × List Str)) (k : Str) : Option (List Str) :=
  (d.find? (fun p => decide (p.1 = k))).map (fun p => p.2)

/-- String comparison used by Python `sorted` on strings:
lexicographic by code point. -/
def strLe : Str → Str → Bool
  | [], _ => true
  | _ :: _, [] => false
  | a :: as, b :: bs => if a = b then strLe as bs else decide (a < b)

def sortInsert (x : Str) : List Str → List Str
  | [] => [x]
  | y :: ys => if strLe x y then x :: y :: ys else y :: sortInsert x ys

/-- Model of Python `sorted` on a list of strings (insertion sort). -/
def sortStrs (l : List Str) : List Str := l.foldr sortInsert []

/-- One entry of the `pubs` list (one console block / one file row). -/
structure Pub where
  title : Option Str
  journal : Option Str
  pubdate : Option Str
  pmid : Option Str
  url : Str
  institutes : Str
deriving DecidableEq

/-- The body of the per-article loop in `parse_and_output_publications`:
extract the fields, attribute the institutes via `all_pmids`, decide the
match; `some pub` is an article that is printed and appended to `pubs`,
`none` is a dropped article. -/
def processArticle (allPmids : List (Str × List Str)) (allInst : List (Str × Str))
    (a : XML) : Option Pub :=
  let pmid := pmidOf a
  let url := "https://pubmed.gov/".toList ++ pyShow pmid
  let qm :=
    match pmid with
    | some p =>
      match plookup allPmids p with
      | some qry =>
        (List.intercalate [';'] (sortStrs qry),
          institute_affiliation_match allInst qry (affsOf a))
      | none => (([] : Str), false)
    | none => (([] : Str), false)
  if qm.2 then
    some ⟨titleOf a, journalOf a, pubdateOf a, pmid, url, qm.1⟩
  else none

/-- `root.findall('.//PubmedArticle')`. -/
def articlesOf (root : XML) : List XML :=
  root.descendants.filter (fun d => decide (d.tag = "PubmedArticle".toList))

/-- The pubs produced from one fetched XML document. -/
def pubsOfDoc (allPmids : List (Str × List Str)) (allInst : List (Str × Str))
    (root : XML) : List Pub :=
  (articlesOf root).filterMap (processArticle allPmids allInst)

/-- Python `x or ''` on a possibly-`None` string. -/
def pyOrEmpty (o : Option Str) : Str := o.getD []

/-- `.replace('\t', ' ').replace('\n', ' ')`. -/
def collapseWS (s : Str) : Str :=
  s.map (fun c => if c = '\t' || c = '\n' then ' ' else c)

/-- One output-file row, `f"{title}\t{journal}\t{date}\t{pmid}\t{url}\t{institutes_str}"`
(without the trailing newline added by `f.write`). -/
def renderRow (p : Pub) : Str :=
  collapseWS (pyOrEmpty p.title) ++ '\t' :: collapseWS (pyOrEmpty p.journal)
    ++ '\t' :: collapseWS (pyOrEmpty p.pubdate) ++ '\t' :: pyOrEmpty p.pmid
    ++ '\t' :: p.url ++ '\t' :: p.institutes

/-- How a run of `main` terminates. -/
inductive Outcome where
  | ok
  | oneLineError (msg : Str)
  | uncaughtError
deriving DecidableEq

/-- Control structure of `main` around error handling: the institute file
is read BEFORE the `try` block (line 165), so an `AssertionError` from
`read_institute_names` is an uncaught exception; everything network- and
parse-related runs inside the `try` block, abstracted here as `body`, and
an exception from it is caught by the single `except`, printed as the
one-line `Error: {e}` to stderr, followed by `sys.exit(1)`. -/
def mainModel (lines : List Str) (body : List (Str × Str) → Except Str Unit) : Outcome :=
  match read_institute_names lines with
  | none => .uncaughtError
  | some insts =>
    match body insts with
    | .ok _ => .ok
    | .error e => .oneLineError e

/-- Both an uncaught exception and `sys.exit(1)` give a non-zero process
exit status. -/
def exitsNonzero : Outcome → Bool
  | .ok => false
  | .oneLineError _ => true
  | .uncaughtError => true

/-- Only the top-level handler produces the one-line error report. -/
def isOneLineReport : Outcome → Bool
  | .oneLineError _ => true
  | _ => false

/-! ### Test fixtures (concrete inputs used by witnesses and counterexamples) -/

/-- Institute dict with two country-less rules. -/
def exInstDict : List (Str × Str) := [("alpha".toList, "NA".toList), ("beta".toList, "NA".toList)]

/-- pmid "1" was returned by the searches of both rules. -/
def exPmids : List (Str × List Str) := [("1".toList, ["alpha".toList, "beta".toList])]

/-- An article whose only affiliation mentions alpha but not beta. -/
def exArticle : XML :=
  .node ("PubmedArticle".toList) none
    [ .node ("PMID".toList) (some ("1".toList)) []
    , .node ("AffiliationInfo".toList) none
        [ .node ("Affiliation".toList) (some ("Alpha Institute".toList)) [] ] ]

/-- The pub row the source produces for `exArticle`. -/
def exPub : Pub :=
  ⟨some [], some [], some [], some ("1".toList),
    "https://pubmed.gov/1".toList, "alpha;beta".toList⟩

/-! ### The matcher as an any-fold over per-rule tests -/

/-- Boolean shape of an early-returning if/elif chain. -/
theorem if_if_or (A B C : Bool) : (if A then true else if B then true else C) = ((A || B) || C) := by
  cases A <;> cases B <;> simp

/-- The early-returning loop of `institute_affiliation_match` tests each
attributed rule in turn; it is the disjunction of the per-rule tests. -/
theorem iam_eq_any (I : List (Str × Str)) (qry affs : List Str) :
    institute_affiliation_match I qry affs
      = qry.any (fun inst => ruleMatch inst (countryOf I inst) affs) := by
  induction qry with
  | nil => rfl
  | cons inst rest ih =>
    simp only [institute_affiliation_match]
    rw [if_if_or, ih, List.any_cons]
    rfl

/-- For the sentinel country the second disjunct of the per-rule test is
subsumed by the first. -/
theorem ruleMatch_NA_eq (inst : Str) (affs : List Str) :
    ruleMatch inst NA affs = affs.any (fun aff => substrOf (lowerStr inst) aff) := by
  simp only [ruleMatch, decide_True, Bool.true_and]
  cases h : affs.any (fun aff => substrOf (lowerStr inst) aff) with
  | true => simp
  | false =>
    simp only [Bool.false_or]
    simp only [List.any_eq_false] at h ⊢
    intro a ha
    simp [h a ha]

/-- For a non-sentinel, non-empty country the per-rule test demands name
and country inside the same affiliation string. -/
theorem ruleMatch_country_eq (inst country : Str) (affs : List Str)
    (hna : country ≠ NA) (hne : country ≠ []) :
    ruleMatch inst country affs
      = affs.any (fun aff =>
          substrOf (lowerStr inst) aff && substrOf (lowerStr country) aff) := by
  simp [ruleMatch, hna, hne]

/-- C3: for every institution rule whose country value is the sentinel "NA"
and every list of case-folded affiliation strings, the matcher accepts the
rule iff the case-folded institution name is a substring of at least one
affiliation string (shown both for the per-rule test and for the matcher
run on that single rule). -/
theorem C3_na_rule (I : List (Str × Str)) (inst : Str) (affs : List Str)
    (h : countryOf I inst = NA) :
    ruleMatch inst (countryOf I inst) affs
        = affs.any (fun aff => substrOf (lowerStr inst) aff)
      ∧ institute_affiliation_match I [inst] affs
        = affs.any (fun aff => substrOf (lowerStr inst) aff) := by
  constructor
  · rw [h, ruleMatch_NA_eq]
  · rw [iam_eq_any]
    simp only [List.any_cons, List.any_nil, Bool.or_false]
    rw [h, ruleMatch_NA_eq]

theorem C3_witness :
    (ruleMatch ("alpha".toList) (countryOf exInstDict ("alpha".toList)) ["x alpha y".toList]
        = List.any ["x alpha y".toList] (fun aff => substrOf (lowerStr ("alpha".toList)) aff))
      ∧ institute_affiliation_match exInstDict ["alpha".toList] ["x alpha y".toList]
        = List.any ["x alpha y".toList] (fun aff => substrOf (lowerStr ("alpha".toList)) aff) :=
  C3_na_rule exInstDict ("alpha".toList) ["x alpha y".toList] (by decide)


/-- C2: an article extracted from a fetched XML document is included in the
report (console block and output-file row, i.e. `processArticle` returns
`some`) iff at least one institution rule attributed to it through the
pmid→institutes mapping matches its case-folded affiliation list;
otherwise it is dropped. -/
theorem C2_report_iff_match (P : List (Str × List Str)) (I : List (Str × Str)) (a : XML) :
    (processArticle P I a).isSome = true
      ↔ ∃ p qry, pmidOf a = some p ∧ plookup P p = some qry
          ∧ ∃ inst ∈ qry, ruleMatch inst (countryOf I inst) (affsOf a) = true := by
  simp only [processArticle]
  cases hp : pmidOf a with
  | none => simp [hp]
  | some p =>
    cases hq : plookup P p with
    | none => simp [hq]
    | some qry =>
      cases hm : institute_affiliation_match I qry (affsOf a) with
      | true =>
        simp only [hq, hm]
        rw [iam_eq_any] at hm
        simp only [List.any_eq_true] at hm
        simp only [if_true, reduceIte, Option.isSome_some, true_iff, Option.some.injEq]
        exact ⟨p, qry, rfl, hq, hm⟩
      | false =>
        simp only [hq, hm]
        rw [iam_eq_any] at hm
        simp only [List.any_eq_false] at hm
        simp only [if_false, Bool.false_eq_true, reduceIte, Option.isSome_none,
          Option.some.injEq]
        constructor
        · intro hfalse; cases hfalse
        · rintro ⟨p2, q2, hpeq, hq2, inst, hinst, hr⟩
          cases hpeq
          rw [hq] at hq2
          cases hq2
          exact absurd hr (by simpa using hm inst hinst)

/-- C1 (amended): the Institutes field of a reported row is the
semicolon-joined, lexicographically sorted list of ALL rule names
attributed to the article via the pmid→institutes mapping, regardless of
whether each of them individually matched. -/
theorem C1_institutes_field (P : List (Str × List Str)) (I : List (Str × Str)) (a : XML)
    (pub : Pub) (h : processArticle P I a = some pub) :
    ∃ p qry, pmidOf a = some p ∧ plookup P p = some qry
      ∧ pub.institutes = List.intercalate [';'] (sortStrs qry) := by
  simp only [processArticle] at h
  cases hp : pmidOf a with
  | none => simp only [hp] at h; simp at h
  | some p =>
    simp only [hp] at h
    cases hq : plookup P p with
    | none => simp only [hq] at h; simp at h
    | some qry =>
      simp only [hq] at h
      cases hm : institute_affiliation_match I qry (affsOf a) with
      | false => simp only [hm] at h; simp at h
      | true =>
        simp only [hm] at h
        simp only [if_true, reduceIte, Option.some.injEq] at h
        refine ⟨p, qry, rfl, hq, ?_⟩
        rw [← h]

/-- C2 witness: a concrete matching article is reported. -/
theorem C2_witness : (processArticle exPmids exInstDict exArticle).isSome = true :=
  (C2_report_iff_match exPmids exInstDict exArticle).mpr
    ⟨"1".toList, ["alpha".toList, "beta".toList], by decide, by decide,
      "alpha".toList, by decide, by decide⟩

/-- C1 counterexample: for `exArticle` only rule "alpha" matches the single
affiliation, yet the reported Institutes field is "alpha;beta" — the
attributed rule "beta", which failed its match test, appears in the field. -/
theorem C1_counterexample :
    (processArticle exPmids exInstDict exArticle).map Pub.institutes
        = some ("alpha;beta".toList)
      ∧ ruleMatch ("beta".toList) (countryOf exInstDict ("beta".toList)) (affsOf exArticle)
        = false := by
  decide

/-- C1 witness: the amended claim at the concrete fixture. -/
theorem C1_witness :
    ∃ p qry, pmidOf exArticle = some p ∧ plookup exPmids p = some qry
      ∧ exPub.institutes = List.intercalate [';'] (sortStrs qry) :=
  C1_institutes_field exPmids exInstDict exArticle exPub (by decide)

/-! ### Chunking -/

/-- `chunked` on the empty list yields no chunks. -/
theorem chunked_nil {α : Type} (n : Nat) : chunked ([] : List α) n = [] := by
  cases n <;> simp [chunked]

/-- Unfolding of `chunked` on a nonempty list and positive size. -/
theorem chunked_eq_cons {α : Type} (n : Nat) (hn : 0 < n) (l : List α) (h : l ≠ []) :
    chunked l n = l.take n :: chunked (l.drop n) n := by
  cases l with
  | nil => exact absurd rfl h
  | cons x xs =>
    cases n with
    | zero => omega
    | succ m => simp [chunked]

/-- The chunks concatenate back to the original list: nothing is
duplicated, dropped, or reordered. -/
theorem chunked_join {α : Type} (n : Nat) (hn : 0 < n) :
    ∀ l : List α, (chunked l n).flatten = l
  | [] => by simp [chunked_nil]
  | x :: xs => by
    rw [chunked_eq_cons n hn _ (by simp)]
    rw [List.flatten_cons, chunked_join n hn ((x :: xs).drop n)]
    exact List.take_append_drop _ _
termination_by l => l.length
decreasing_by simp [List.length_drop]; omega

/-- Every chunk is nonempty and no larger than the batch size. -/
theorem chunked_sizes {α : Type} (n : Nat) (hn : 0 < n) :
    ∀ l : List α, ∀ c ∈ chunked l n, 0 < c.length ∧ c.length ≤ n
  | [] => by simp [chunked_nil]
  | x :: xs => by
    intro c hc
    rw [chunked_eq_cons n hn _ (by simp)] at hc
    rcases List.mem_cons.mp hc with h | h
    · subst h
      simp only [List.length_take, List.length_cons]
      omega
    · exact chunked_sizes n hn _ c h
termination_by l => l.length
decreasing_by simp [List.length_drop]; omega

/-- Every chunk except possibly the last has length exactly `n`. -/
theorem chunked_dropLast_sizes {α : Type} (n : Nat) (hn : 0 < n) :
    ∀ l : List α, ∀ c ∈ (chunked l n).dropLast, c.length = n
  | [] => by simp [chunked_nil]
  | x :: xs => by
    intro c hc
    rw [chunked_eq_cons n hn _ (by simp)] at hc
    cases hrest : chunked ((x :: xs).drop n) n with
    | nil => rw [hrest] at hc; simp at hc
    | cons r rs =>
      rw [hrest] at hc
      rw [List.dropLast_cons₂] at hc
      rcases List.mem_cons.mp hc with h | h
      · subst h
        have hdrop : (x :: xs).drop n ≠ [] := by
          intro h0
          rw [h0, chunked_nil] at hrest
          cases hrest
        have hlen : n < (x :: xs).length := by
          by_contra hle
          push_neg at hle
          exact hdrop (List.drop_eq_nil_of_le hle)
        simp only [List.length_take]
        omega
      · have := chunked_dropLast_sizes n hn ((x :: xs).drop n) c
        rw [hrest] at this
        exact this h
termination_by l => l.length
decreasing_by simp [List.length_drop]; omega

/-- C7: chunking with batch size 250 partitions any identifier list into
consecutive batches in original order (their concatenation is the list, so
nothing is duplicated or dropped), each batch nonempty and of size at most
250, every batch except possibly the last of size exactly 250; and a list
of 600 identifiers yields exactly the batch sizes 250, 250, 100. -/
theorem C7_chunked_partition {α : Type} (l : List α) :
    (chunked l 250).flatten = l
    ∧ (∀ c ∈ (chunked l 250).dropLast, c.length = 250)
    ∧ (∀ c ∈ chunked l 250, 0 < c.length ∧ c.length ≤ 250)
    ∧ (l.length = 600 → (chunked l 250).map List.length = [250, 250, 100]) := by
  refine ⟨chunked_join 250 (by omega) l, chunked_dropLast_sizes 250 (by omega) l,
    chunked_sizes 250 (by omega) l, ?_⟩
  intro h
  have e1 : (l.drop 250).length = 350 := by simp [h]
  have e2 : ((l.drop 250).drop 250).length = 100 := by simp [h]
  have e3 : (((l.drop 250).drop 250).drop 250) = [] := by
    have : (((l.drop 250).drop 250).drop 250).length = 0 := by simp [h]
    exact List.eq_nil_of_length_eq_zero this
  rw [chunked_eq_cons 250 (by omega) l (by intro e; rw [e] at h; simp at h)]
  rw [chunked_eq_cons 250 (by omega) _ (by intro e; rw [e] at e1; simp at e1)]
  rw [chunked_eq_cons 250 (by omega) _ (by intro e; rw [e] at e2; simp at e2)]
  rw [e3, chunked_nil]
  simp only [List.map_cons, List.map_nil, List.length_take, h, e1, e2]
  norm_num

/-- C7 witness: the concrete 600-element instance. -/
theorem C7_witness :
    (chunked (List.range 600) 250).map List.length = [250, 250, 100]
      ∧ (chunked (List.range 600) 250).flatten = List.range 600 :=
  ⟨(C7_chunked_partition (List.range 600)).2.2.2 (by simp),
    (C7_chunked_partition (List.range 600)).1⟩

/-! ### Publication date extraction -/

/-- C8: the extracted publication date is the text of the
`JournalIssue/PubDate/Year` element when present, else the text of the
`JournalIssue/PubDate/MedlineDate` element when present, else the empty
string. -/
theorem C8_pubdate (a : XML) :
    (∀ e, find1 a ["JournalIssue".toList, "PubDate".toList, "Year".toList] = some e →
        pubdateOf a = e.txt)
    ∧ (find1 a ["JournalIssue".toList, "PubDate".toList, "Year".toList] = none →
        ∀ e, find1 a ["JournalIssue".toList, "PubDate".toList, "MedlineDate".toList] = some e →
          pubdateOf a = e.txt)
    ∧ (find1 a ["JournalIssue".toList, "PubDate".toList, "Year".toList] = none →
        find1 a ["JournalIssue".toList, "PubDate".toList, "MedlineDate".toList] = none →
          pubdateOf a = some []) := by
  refine ⟨?_, ?_, ?_⟩
  · intro e he
    unfold pubdateOf
    rw [he]
  · intro hy e he
    unfold pubdateOf
    rw [hy, he]
  · intro hy hm
    unfold pubdateOf
    rw [hy, hm]

/-- An article carrying a Year element. -/
def exArticleYear : XML :=
  .node ("PubmedArticle".toList) none
    [ .node ("JournalIssue".toList) none
        [ .node ("PubDate".toList) none
            [ .node ("Year".toList) (some ("2020".toList)) [] ] ] ]

/-- C8 witness: the Year branch at a concrete article. -/
theorem C8_witness : pubdateOf exArticleYear = some ("2020".toList) :=
  (C8_pubdate exArticleYear).1 (XML.node ("Year".toList) (some ("2020".toList)) []) rfl

/-! ### Row rendering -/

/-- Collapsing leaves no tab. -/
theorem collapseWS_no_tab (s : Str) : '\t' ∉ collapseWS s := by
  intro hmem
  rcases List.mem_map.mp hmem with ⟨c, _, heq⟩
  by_cases h : (c = '\t' || c = '\n') = true
  · rw [if_pos h] at heq
    exact absurd heq (by decide)
  · rw [if_neg h] at heq
    subst heq
    simp at h

/-- Collapsing leaves no newline. -/
theorem collapseWS_no_nl (s : Str) : '\n' ∉ collapseWS s := by
  intro hmem
  rcases List.mem_map.mp hmem with ⟨c, _, heq⟩
  by_cases h : (c = '\t' || c = '\n') = true
  · rw [if_pos h] at heq
    exact absurd heq (by decide)
  · rw [if_neg h] at heq
    subst heq
    simp at h

/-- Splitting a tab-free string gives the single field. -/
theorem splitTab_of_no_tab (s : Str) (h : '\t' ∉ s) : splitTab s = [s] := by
  induction s with
  | nil => rfl
  | cons c rest ih =>
    have hc : c ≠ '\t' := fun e => h (e ▸ List.mem_cons_self c rest)
    have hr : '\t' ∉ rest := fun m => h (List.mem_cons_of_mem _ m)
    simp only [splitTab, if_neg hc, ih hr]

/-- Splitting past a leading tab-free field. -/
theorem splitTab_append (a r : Str) (h : '\t' ∉ a) :
    splitTab (a ++ '\t' :: r) = a :: splitTab r := by
  induction a with
  | nil => simp [splitTab]
  | cons c cs ih =>
    have hc : c ≠ '\t' := fun e => h (e ▸ List.mem_cons_self c cs)
    have hcs : '\t' ∉ cs := fun m => h (List.mem_cons_of_mem _ m)
    simp only [List.cons_append, splitTab, if_neg hc, List.append_eq]
    rw [ih hcs]

/-- The six tab-separated columns of a rendered row. -/
theorem splitTab_renderRow (p : Pub)
    (hp : '\t' ∉ pyOrEmpty p.pmid) (hu : '\t' ∉ p.url) (hi : '\t' ∉ p.institutes) :
    splitTab (renderRow p)
      = [collapseWS (pyOrEmpty p.title), collapseWS (pyOrEmpty p.journal),
         collapseWS (pyOrEmpty p.pubdate), pyOrEmpty p.pmid, p.url, p.institutes] := by
  simp only [renderRow, List.cons_append, List.append_assoc]
  rw [splitTab_append _ _ (collapseWS_no_tab _), splitTab_append _ _ (collapseWS_no_tab _),
    splitTab_append _ _ (collapseWS_no_tab _), splitTab_append _ _ hp,
    splitTab_append _ _ hu, splitTab_of_no_tab _ hi]

/-- C9: in every written row the sanitised title, journal and date fields
contain no tab and no newline, and — the remaining fields being tab-free,
as identifiers and reader-produced institute names are — the row consists
of exactly six tab-separated columns. -/
theorem C9_row_fields (p : Pub)
    (hp : '\t' ∉ pyOrEmpty p.pmid) (hu : '\t' ∉ p.url) (hi : '\t' ∉ p.institutes) :
    ('\t' ∉ collapseWS (pyOrEmpty p.title) ∧ '\n' ∉ collapseWS (pyOrEmpty p.title))
    ∧ ('\t' ∉ collapseWS (pyOrEmpty p.journal) ∧ '\n' ∉ collapseWS (pyOrEmpty p.journal))
    ∧ ('\t' ∉ collapseWS (pyOrEmpty p.pubdate) ∧ '\n' ∉ collapseWS (pyOrEmpty p.pubdate))
    ∧ (splitTab (renderRow p)).length = 6 := by
  refine ⟨⟨collapseWS_no_tab _, collapseWS_no_nl _⟩, ⟨collapseWS_no_tab _, collapseWS_no_nl _⟩,
    ⟨collapseWS_no_tab _, collapseWS_no_nl _⟩, ?_⟩
  rw [splitTab_renderRow p hp hu hi]
  rfl

/-- C9 witness at the concrete fixture row. -/
theorem C9_witness :
    ('\t' ∉ collapseWS (pyOrEmpty exPub.title) ∧ '\n' ∉ collapseWS (pyOrEmpty exPub.title))
    ∧ ('\t' ∉ collapseWS (pyOrEmpty exPub.journal) ∧ '\n' ∉ collapseWS (pyOrEmpty exPub.journal))
    ∧ ('\t' ∉ collapseWS (pyOrEmpty exPub.pubdate) ∧ '\n' ∉ collapseWS (pyOrEmpty exPub.pubdate))
    ∧ (splitTab (renderRow exPub)).length = 6 :=
  C9_row_fields exPub (by decide) (by decide) (by decide)

/-! ### Structure of splitTab and strip -/

/-- Splitting always yields at least one field. -/
theorem splitTab_ne_nil (s : Str) : splitTab s ≠ [] := by
  cases s with
  | nil => simp [splitTab]
  | cons c rest =>
    by_cases hc : c = '\t'
    · simp [splitTab, hc]
    · simp only [splitTab, if_neg hc]
      cases splitTab rest <;> simp

/-- A one-field split means the string was the field. -/
theorem splitTab_single : ∀ (s x : Str), splitTab s = [x] → s = x
  | [], x, h => by simpa [splitTab] using h
  | c :: rest, x, h => by
    by_cases hc : c = '\t'
    · rw [splitTab, if_pos hc] at h
      simp only [List.cons.injEq] at h
      exact absurd h.2 (splitTab_ne_nil rest)
    · rw [splitTab, if_neg hc] at h
      cases hr : splitTab rest with
      | nil => exact absurd hr (splitTab_ne_nil rest)
      | cons p ps =>
        rw [hr] at h
        simp only [List.cons.injEq] at h
        have := splitTab_single rest p (by rw [hr, h.2])
        rw [← h.1, this]

/-- A two-field split recovers the string around the tab. -/
theorem splitTab_pair : ∀ (s a b : Str), splitTab s = [a, b] → s = a ++ '\t' :: b
  | [], a, b, h => by simp [splitTab] at h
  | c :: rest, a, b, h => by
    by_cases hc : c = '\t'
    · rw [splitTab, if_pos hc] at h
      simp only [List.cons.injEq] at h
      have := splitTab_single rest b (by rw [h.2])
      rw [← h.1, hc, this]
      rfl
    · rw [splitTab, if_neg hc] at h
      cases hr : splitTab rest with
      | nil => exact absurd hr (splitTab_ne_nil rest)
      | cons p ps =>
        rw [hr] at h
        simp only [List.cons.injEq] at h
        have hrest := splitTab_pair rest p b (by rw [hr, h.2])
        rw [← h.1, hrest]
        rfl

/-- Fields of a split contain no tab. -/
theorem splitTab_mem_no_tab : ∀ (s : Str), ∀ p ∈ splitTab s, '\t' ∉ p
  | [], p, hp => by
    simp [splitTab] at hp
    simp [hp]
  | c :: rest, p, hp => by
    by_cases hc : c = '\t'
    · rw [splitTab, if_pos hc] at hp
      rcases List.mem_cons.mp hp with h | h
      · simp [h]
      · exact splitTab_mem_no_tab rest p h
    · rw [splitTab, if_neg hc] at hp
      cases hr : splitTab rest with
      | nil => exact absurd hr (splitTab_ne_nil rest)
      | cons q qs =>
        rw [hr] at hp
        rcases List.mem_cons.mp hp with h | h
        · subst h
          intro hmem
          rcases List.mem_cons.mp hmem with h | h
          · exact hc h.symm
          · exact splitTab_mem_no_tab rest q (by rw [hr]; exact List.mem_cons_self q qs) h
        · exact splitTab_mem_no_tab rest p (by rw [hr]; exact List.mem_cons_of_mem q h)

/-- `rstrip` is Mathlib's `rdropWhile`. -/
theorem rstrip_eq_rdropWhile (s : Str) : rstrip s = List.rdropWhile isWsChar s := rfl

/-- The last character of a nonempty stripped string is not whitespace. -/
theorem strip_last_not_ws (s : Str) (c : Char) (h : (strip s).getLast? = some c) :
    isWsChar c = false := by
  have hne : strip s ≠ [] := by
    intro e
    rw [e] at h
    cases h
  have hlast := List.rdropWhile_last_not (p := isWsChar) (l := lstrip s)
    (by rw [← rstrip_eq_rdropWhile]; exact hne)
  have hgl : (strip s).getLast hne = c := by
    rw [List.getLast?_eq_getLast_of_ne_nil hne] at h
    injection h
  rw [← hgl]
  exact Bool.eq_false_iff.mpr hlast

/-- A string whose last character is not whitespace strips to a nonempty
string. -/
theorem strip_ne_nil_of_last (b : Str) (c : Char) (hb : b.getLast? = some c)
    (hc : isWsChar c = false) : strip b ≠ [] := by
  have hcmem : c ∈ b := by
    rcases List.mem_getLast?_eq_getLast (by rw [hb]; rfl) with ⟨hne, he⟩
    rw [he]
    exact List.getLast_mem hne
  have h1 : lstrip b ≠ [] := by
    intro e
    have hall := List.dropWhile_eq_nil_iff.mp e
    rw [hall c hcmem] at hc
    cases hc
  have h2 : (lstrip b).getLast? = some c := by
    obtain ⟨t, ht⟩ := List.dropWhile_suffix (l := b) isWsChar
    have : (lstrip b).getLast? = b.getLast? := by
      conv_rhs => rw [← ht]
      exact (List.getLast?_append_of_ne_nil t h1).symm
    rw [this, hb]
  have h3 : strip b = lstrip b := by
    show List.rdropWhile isWsChar (lstrip b) = lstrip b
    rw [List.rdropWhile_eq_self_iff]
    intro hl
    rw [List.getLast?_eq_getLast_of_ne_nil hl] at h2
    injection h2 with h2
    rw [h2, hc]
    simp
  rw [h3]
  exact h1

/-- In an accepted (non-blank, non-comment) two-field line, the second
field strips to a nonempty string: the stripped line ends in a
non-whitespace character, which ends the second field. -/
theorem snd_field_ne_nil (l a b : Str) (hne : strip l ≠ [])
    (hsp : splitTab (strip l) = [a, b]) : strip b ≠ [] := by
  have heq : strip l = a ++ '\t' :: b := splitTab_pair _ _ _ hsp
  obtain ⟨c, hc⟩ : ∃ c, (strip l).getLast? = some c := by
    cases hgl : (strip l).getLast? with
    | none => exact absurd (List.getLast?_eq_none_iff.mp hgl) hne
    | some c => exact ⟨c, rfl⟩
  have hcw : isWsChar c = false := strip_last_not_ws l c hc
  rw [heq, List.getLast?_append_cons] at hc
  have hbne : b ≠ [] := by
    intro e
    rw [e] at hc
    simp only [List.getLast?_singleton, Option.some.injEq] at hc
    rw [← hc] at hcw
    simp [isWsChar] at hcw
  have hbl : b.getLast? = some c := by
    cases b with
    | nil => exact absurd rfl hbne
    | cons x xs =>
      rw [List.getLast?_cons_cons] at hc
      exact hc
  exact strip_ne_nil_of_last b c hbl hcw

/-! ### Reader invariants -/

/-- Members of a dict after update are old members or the new pair. -/
theorem mem_dinsert (d : List (Str × Str)) (k v : Str) (p : Str × Str) :
    p ∈ dinsert d k v → p ∈ d ∨ p = (k, v) := by
  unfold dinsert
  split
  · intro hp
    rcases List.mem_map.mp hp with ⟨q, hq, he⟩
    by_cases h : q.1 = k
    · right
      rw [← he, if_pos h]
    · left
      rw [← he, if_neg h]
      exact hq
  · intro hp
    rcases List.mem_append.mp hp with h | h
    · exact Or.inl h
    · right
      simpa using h

/-- Every country value stored by the reader is a nonempty string. -/
theorem readLines_vals_ne : ∀ (lines : List Str) (acc res : List (Str × Str)),
    (∀ p ∈ acc, p.2 ≠ []) → readLines acc lines = some res → ∀ p ∈ res, p.2 ≠ []
  | [], acc, res, hacc, hread => by
    simp only [readLines, Option.some.injEq] at hread
    rw [← hread]
    exact hacc
  | l :: rest, acc, res, hacc, hread => by
    simp only [readLines] at hread
    by_cases h1 : strip l = []
    · rw [if_pos h1] at hread
      exact readLines_vals_ne rest acc res hacc hread
    · rw [if_neg h1] at hread
      by_cases h2 : (strip l).head? = some '#'
      · rw [if_pos h2] at hread
        exact readLines_vals_ne rest acc res hacc hread
      · rw [if_neg h2] at hread
        cases hsp : splitTab (strip l) with
        | nil => exact absurd hsp (splitTab_ne_nil _)
        | cons a tl =>
          cases tl with
          | nil =>
            rw [hsp] at hread
            cases hread
          | cons b tl2 =>
            cases tl2 with
            | nil =>
              rw [hsp] at hread
              refine readLines_vals_ne rest _ res ?_ hread
              intro p hp
              rcases mem_dinsert _ _ _ _ hp with h | h
              · exact hacc p h
              · rw [h]
                exact snd_field_ne_nil l a b h1 hsp
            | cons d tl3 =>
              rw [hsp] at hread
              cases hread

/-- Every stored pair comes from a two-field line: the name is the
quote-stripped stripped first field, the country the stripped second
field verbatim. -/
theorem readLines_chars : ∀ (lines : List Str) (acc res : List (Str × Str)),
    readLines acc lines = some res → ∀ p ∈ res,
      p ∈ acc ∨ ∃ l ∈ lines, ∃ a b, splitTab (strip l) = [a, b]
        ∧ p = ((strip a).filter (fun c => decide (c ≠ '"')), strip b)
  | [], acc, res, hread => by
    simp only [readLines, Option.some.injEq] at hread
    rw [← hread]
    exact fun p hp => Or.inl hp
  | l :: rest, acc, res, hread => by
    simp only [readLines] at hread
    by_cases h1 : strip l = []
    · rw [if_pos h1] at hread
      intro p hp
      rcases readLines_chars rest acc res hread p hp with h | ⟨l2, hl2, a, b, hsp, hpe⟩
      · exact Or.inl h
      · exact Or.inr ⟨l2, List.mem_cons_of_mem _ hl2, a, b, hsp, hpe⟩
    · rw [if_neg h1] at hread
      by_cases h2 : (strip l).head? = some '#'
      · rw [if_pos h2] at hread
        intro p hp
        rcases readLines_chars rest acc res hread p hp with h | ⟨l2, hl2, a, b, hsp, hpe⟩
        · exact Or.inl h
        · exact Or.inr ⟨l2, List.mem_cons_of_mem _ hl2, a, b, hsp, hpe⟩
      · rw [if_neg h2] at hread
        cases hsp : splitTab (strip l) with
        | nil => exact absurd hsp (splitTab_ne_nil _)
        | cons a tl =>
          cases tl with
          | nil =>
            rw [hsp] at hread
            cases hread
          | cons b tl2 =>
            cases tl2 with
            | nil =>
              rw [hsp] at hread
              intro p hp
              rcases readLines_chars rest _ res hread p hp with h | ⟨l2, hl2, a2, b2, hsp2, hpe⟩
              · rcases mem_dinsert _ _ _ _ h with h | h
                · exact Or.inl h
                · exact Or.inr ⟨l, List.mem_cons_self l rest, a, b, hsp, h⟩
              · exact Or.inr ⟨l2, List.mem_cons_of_mem _ hl2, a2, b2, hsp2, hpe⟩
            | cons d tl3 =>
              rw [hsp] at hread
              cases hread

/-- The reader succeeds iff every line is blank, a comment, or has
exactly two tab-separated fields. -/
theorem readLines_isSome : ∀ (lines : List Str) (acc : List (Str × Str)),
    (readLines acc lines).isSome = true
      ↔ ∀ l ∈ lines, strip l = [] ∨ (strip l).head? = some '#'
          ∨ (splitTab (strip l)).length = 2
  | [], acc => by simp [readLines]
  | l :: rest, acc => by
    simp only [readLines]
    by_cases h1 : strip l = []
    · rw [if_pos h1, readLines_isSome rest acc]
      constructor
      · intro h l2 hl2
        rcases List.mem_cons.mp hl2 with he | hm
        · subst he
          exact Or.inl h1
        · exact h l2 hm
      · intro h l2 hl2
        exact h l2 (List.mem_cons_of_mem _ hl2)
    · rw [if_neg h1]
      by_cases h2 : (strip l).head? = some '#'
      · rw [if_pos h2, readLines_isSome rest acc]
        constructor
        · intro h l2 hl2
          rcases List.mem_cons.mp hl2 with he | hm
          · subst he
            exact Or.inr (Or.inl h2)
          · exact h l2 hm
        · intro h l2 hl2
          exact h l2 (List.mem_cons_of_mem _ hl2)
      · rw [if_neg h2]
        cases hsp : splitTab (strip l) with
        | nil => exact absurd hsp (splitTab_ne_nil _)
        | cons a tl =>
          cases tl with
          | nil =>
            change ((none : Option (List (Str × Str))).isSome = true) ↔ _
            simp only [Option.isSome_none, Bool.false_eq_true, false_iff]
            intro h
            rcases h l (List.mem_cons_self l rest) with h | h | h
            · exact h1 h
            · exact h2 h
            · rw [hsp] at h
              simp at h
          | cons b tl2 =>
            cases tl2 with
            | nil =>
              change (readLines (dinsert acc ((strip a).filter
                (fun c => decide (c ≠ '"'))) (strip b)) rest).isSome = true ↔ _
              rw [readLines_isSome rest _]
              constructor
              · intro h l2 hl2
                rcases List.mem_cons.mp hl2 with he | hm
                · subst he
                  exact Or.inr (Or.inr (by rw [hsp]; rfl))
                · exact h l2 hm
              · intro h l2 hl2
                exact h l2 (List.mem_cons_of_mem _ hl2)
            | cons d tl3 =>
              change ((none : Option (List (Str × Str))).isSome = true) ↔ _
              simp only [Option.isSome_none, Bool.false_eq_true, false_iff]
              intro h
              rcases h l (List.mem_cons_self l rest) with h | h | h
              · exact h1 h
              · exact h2 h
              · rw [hsp] at h
                simp at h

/-- C4: for every institution rule of the system (a pair produced by the
institute-list reader) whose country is not the sentinel "NA", and every
list of case-folded affiliation strings, the matcher accepts the rule iff
some single affiliation string contains both the case-folded name and the
case-folded country as substrings. -/
theorem C4_country_rule (lines : List Str) (insts : List (Str × Str)) (inst country : Str)
    (affs : List Str) (hread : read_institute_names lines = some insts)
    (hmem : (inst, country) ∈ insts) (hna : country ≠ NA) :
    ruleMatch inst country affs
      = affs.any (fun aff =>
          substrOf (lowerStr inst) aff && substrOf (lowerStr country) aff) := by
  have hne : country ≠ [] :=
    readLines_vals_ne lines [] insts (by simp) hread (inst, country) hmem
  exact ruleMatch_country_eq inst country affs hna hne

/-- C4 witness: rule (X Inst, India) against a spec-style affiliation. -/
theorem C4_witness :
    ruleMatch ("X Inst".toList) ("India".toList) ["x inst, bengaluru, india".toList]
      = List.any ["x inst, bengaluru, india".toList]
          (fun aff => substrOf (lowerStr ("X Inst".toList)) aff
            && substrOf (lowerStr ("India".toList)) aff) :=
  C4_country_rule ["X Inst\tIndia".toList] [("X Inst".toList, "India".toList)]
    ("X Inst".toList) ("India".toList) ["x inst, bengaluru, india".toList]
    (by decide) (by decide) (by decide)

/-- C5 counterexample: a malformed institution-list line (no tab field
separator) makes `main` fail by an uncaught AssertionError raised before
the try block — the outcome is not the one-line top-level error report the
claim requires for every taxonomy member. -/
theorem C5_counterexample :
    mainModel ["OnlyInstituteName".toList] (fun _ => Except.ok ()) = Outcome.uncaughtError
      ∧ isOneLineReport (mainModel ["OnlyInstituteName".toList] (fun _ => Except.ok ()))
        = false := by
  decide

/-- C5 (amended): an error raised inside the try block (network/transport
failure, malformed response body) is caught once at the top level,
reported as the one-line message, and exits non-zero; a malformed
institution-list line instead raises an uncaught assertion error before
the try block — the process still exits non-zero, but with a traceback
rather than the one-line report. -/
theorem C5_error_handling (lines : List Str) (body : List (Str × Str) → Except Str Unit) :
    (∀ insts e, read_institute_names lines = some insts → body insts = Except.error e →
        mainModel lines body = Outcome.oneLineError e
          ∧ exitsNonzero (mainModel lines body) = true)
    ∧ (read_institute_names lines = none →
        mainModel lines body = Outcome.uncaughtError
          ∧ exitsNonzero (mainModel lines body) = true) := by
  constructor
  · intro insts e hr hb
    have hm : mainModel lines body = Outcome.oneLineError e := by
      unfold mainModel
      rw [hr]
      show (match body insts with
        | Except.ok _ => Outcome.ok
        | Except.error e => Outcome.oneLineError e) = _
      rw [hb]
    exact ⟨hm, by rw [hm]; rfl⟩
  · intro hr
    have hm : mainModel lines body = Outcome.uncaughtError := by
      unfold mainModel
      rw [hr]
    exact ⟨hm, by rw [hm]; rfl⟩

/-- C5 witness: an in-try error is reported as the one-line message with
non-zero exit. -/
theorem C5_witness :
    mainModel ["A\tNA".toList] (fun _ => Except.error ("boom".toList))
        = Outcome.oneLineError ("boom".toList)
      ∧ exitsNonzero (mainModel ["A\tNA".toList] (fun _ => Except.error ("boom".toList)))
        = true :=
  (C5_error_handling ["A\tNA".toList] (fun _ => Except.error ("boom".toList))).1
    [("A".toList, "NA".toList)] ("boom".toList) (by decide) rfl

/-- C6 counterexample: a newline-delimited institution-name-only line is
not accepted — the reader fails on it (AssertionError), refuting the
"either newline-delimited names or tab-delimited pairs" reading. -/
theorem C6_counterexample : read_institute_names ["OnlyInstituteName".toList] = none := by
  decide

/-- C6 (amended): the reader accepts an institution list iff every line is
blank, a '#' comment, or has exactly two tab-separated fields (name-only
lines are fatal); and a country value equal to the sentinel "NA" disables
the country check, reducing the rule to the name-substring test. -/
theorem C6_reader_format (lines : List Str) (inst : Str) (affs : List Str) :
    ((read_institute_names lines).isSome = true
       ↔ ∀ l ∈ lines, strip l = [] ∨ (strip l).head? = some '#'
           ∨ (splitTab (strip l)).length = 2)
    ∧ ruleMatch inst NA affs = affs.any (fun aff => substrOf (lowerStr inst) aff) :=
  ⟨readLines_isSome lines [], ruleMatch_NA_eq inst affs⟩

/-- C6 witness: a comment line, a pair line and a blank line are accepted;
the NA rule behaves as the pure name test. -/
theorem C6_witness :
    (read_institute_names ["# comment".toList, "A\tNA".toList, "".toList]).isSome = true
      ∧ ruleMatch ("a".toList) NA ["xa".toList]
        = List.any ["xa".toList] (fun aff => substrOf (lowerStr ("a".toList)) aff) :=
  ⟨(C6_reader_format ["# comment".toList, "A\tNA".toList, "".toList]
      ("a".toList) ["xa".toList]).1.mpr (by decide),
    (C6_reader_format ["# comment".toList, "A\tNA".toList, "".toList]
      ("a".toList) ["xa".toList]).2⟩

/-- C10: every institution name stored by the reader has all double-quote
characters removed (the name is the quote-stripped stripped first field),
while the stored country is the stripped second field verbatim, quotes
included. -/
theorem C10_quote_stripping (lines : List Str) (insts : List (Str × Str))
    (hread : read_institute_names lines = some insts) :
    ∀ p ∈ insts, ('"' ∉ p.1)
      ∧ ∃ l ∈ lines, ∃ a b, splitTab (strip l) = [a, b]
          ∧ p.1 = (strip a).filter (fun c => decide (c ≠ '"'))
          ∧ p.2 = strip b := by
  intro p hp
  rcases readLines_chars lines [] insts hread p hp with h | ⟨l, hl, a, b, hsp, hpe⟩
  · cases h
  · subst hpe
    refine ⟨?_, l, hl, a, b, hsp, rfl, rfl⟩
    intro hmem
    have := (List.mem_filter.mp hmem).2
    simp at this

/-- C10 witness: a line with quoted name and quoted country stores the
unquoted name but keeps the country quotes. -/
theorem C10_witness :
    ('"' ∉ ("A".toList : Str))
      ∧ ∃ l ∈ (["\"A\"\t\"B\"".toList] : List Str), ∃ a b, splitTab (strip l) = [a, b]
          ∧ ("A".toList : Str) = (strip a).filter (fun c => decide (c ≠ '"'))
          ∧ ("\"B\"".toList : Str) = strip b :=
  C10_quote_stripping ["\"A\"\t\"B\"".toList] [("A".toList, "\"B\"".toList)] (by decide)
    ("A".toList, "\"B\"".toList) (by decide)
